import Mathlib

/-!
Shallow embedding of the `time_based_storage` package
(`src/time_based_storage/src/time_based_storage/`), covering the three storage
backends and the operations the specification's testable properties speak about.

Modelling conventions:
* Timestamps are naturals (microseconds since some epoch); `datetime` is totally
  ordered with microsecond precision, so order and arithmetic on `Nat` model it.
* Values are naturals (the tests use `int` payloads; values are otherwise opaque).
* A Python `dict` (`core/base.py`) is an insertion-ordered association list with
  unique keys; iteration order is insertion order.
* A `SortedDict` (`core/rbtree.py`) is an association list kept sorted by key in
  strictly ascending order; `irange` iterates keys of the given interval in order.
* The heap backend (`core/heap.py`) stores a plain Python list managed by
  `heapq.heappush` / `heapq.heapify`, and queries it with `bisect.bisect_left` /
  `bisect.bisect_right`; those library functions are embedded faithfully below,
  including their behaviour on lists that are not sorted.
* `random.randint(0, m)` draws are passed in explicitly as an `offset` argument
  (any value in `[0, m]`, both ends inclusive).
* Raising `ValueError` is modelled with `Except String`.
-/

/-- A stored record: a `(timestamp, value)` pair. -/
abbrev Entry := Nat × Nat

/-- Membership test `timestamp in d` for a Python dict / SortedDict
modelled as an association list. -/
def keyMem (d : List Entry) (t : Nat) : Bool :=
  d.any (fun p => p.1 == t)

/-- Lookup `d.get(timestamp)`: the value of the first entry carrying the key. -/
def keyGet (d : List Entry) (t : Nat) : Option Nat :=
  (d.find? (fun p => p.1 == t)).map Prod.snd

/-- Deletion `del d[timestamp]`: drop the entries carrying the key. -/
def keyDel (d : List Entry) (t : Nat) : List Entry :=
  d.filter (fun p => p.1 != t)

/-- Keys of a store, in storage order. -/
def keysOf (d : List Entry) : List Nat :=
  d.map Prod.fst

namespace TimeBasedStorage

/-- The hash-indexed backend state: `self._storage`, a Python dict. -/
abbrev Store := List Entry

/-- Python dict assignment `d[t] = v`: replace in place if the key exists,
otherwise append at the end of the insertion order. -/
def dictAssign (d : Store) (t v : Nat) : Store :=
  if keyMem d t then d.map (fun p => if p.1 == t then (p.1, v) else p)
  else d ++ [(t, v)]

/-- `TimeBasedStorage.add` (core/base.py:20): raise if the timestamp is
present, otherwise store the value. -/
def add (d : Store) (t v : Nat) : Except String Store :=
  if keyMem d t then Except.error "Value already exists at timestamp"
  else Except.ok (d ++ [(t, v)])

/-- `TimeBasedStorage.add_unique_timestamp` (core/base.py:35): store as-is
when the timestamp is free; otherwise add the drawn random offset and store
under the perturbed timestamp, returning the timestamp actually used. -/
def add_unique_timestamp (d : Store) (t v offset : Nat) : Store × Nat :=
  if keyMem d t = false then (dictAssign d t v, t)
  else (dictAssign d (t + offset) v, t + offset)

/-- `TimeBasedStorage.get_range` (core/base.py:58): values of the entries
whose timestamp lies in `[start, end]`, in dict iteration order. -/
def get_range (d : Store) (s e : Nat) : List Nat :=
  (d.filter (fun p => s ≤ p.1 && p.1 ≤ e)).map Prod.snd

/-- `TimeBasedStorage.get_value_at` (core/base.py:110). -/
def get_value_at (d : Store) (t : Nat) : Option Nat :=
  keyGet d t

/-- `TimeBasedStorage.remove` (core/base.py:122). -/
def remove (d : Store) (t : Nat) : Store × Bool :=
  if keyMem d t then (keyDel d t, true) else (d, false)

/-- `TimeBasedStorage.size` (core/base.py:137). -/
def size (d : Store) : Nat :=
  d.length

/-- `TimeBasedStorage.is_empty` (core/base.py:146). -/
def is_empty (d : Store) : Bool :=
  d.length == 0

end TimeBasedStorage

namespace Heapq

/-- Default entry used to express Python list indexing (all reads below are
guarded by bounds checks mirroring the source). -/
def d0 : Entry := (0, 0)

/-- Python tuple comparison `(t1, v1) < (t2, v2)`: lexicographic. -/
def entLt (a b : Entry) : Bool :=
  a.1 < b.1 || (a.1 == b.1 && a.2 < b.2)

/-- `heapq._siftdown(heap, startpos, pos)` with `newitem = heap[pos]` passed
explicitly: walk parents down while `newitem` is smaller, then place it. -/
def siftdown (newitem : Entry) (heap : List Entry) (startpos pos : Nat) : List Entry :=
  if startpos < pos then
    if entLt newitem (heap.getD ((pos - 1) / 2) d0) then
      siftdown newitem (heap.set pos (heap.getD ((pos - 1) / 2) d0)) startpos ((pos - 1) / 2)
    else heap.set pos newitem
  else heap.set pos newitem
termination_by pos
decreasing_by omega

/-- `heapq.heappush(heap, item)`: append, then sift down from the new slot. -/
def heappush (heap : List Entry) (item : Entry) : List Entry :=
  siftdown item (heap ++ [item]) 0 heap.length

/-- The child index chosen by `heapq._siftup`: the right child when it exists
and is not greater than the left child, else the left child. -/
def childSel (heap : List Entry) (pos : Nat) : Nat :=
  if 2 * pos + 2 < heap.length &&
      !(entLt (heap.getD (2 * pos + 1) d0) (heap.getD (2 * pos + 2) d0)) then
    2 * pos + 2
  else 2 * pos + 1

/-- `heapq._siftup(heap, pos)` with `newitem = heap[pos]` passed explicitly:
bubble the hole down to a leaf, place `newitem` there, then sift it down. -/
def siftup (heap : List Entry) (newitem : Entry) (startpos pos : Nat) : List Entry :=
  if 2 * pos + 1 < heap.length then
    siftup (heap.set pos (heap.getD (childSel heap pos) d0)) newitem startpos (childSel heap pos)
  else siftdown newitem (heap.set pos newitem) startpos pos
termination_by heap.length - pos
decreasing_by simp only [List.length_set, childSel]; split <;> omega

/-- The loop of `heapq.heapify`: `for i in reversed(range(n // 2)): _siftup(x, i)`. -/
def heapifyAux (heap : List Entry) : Nat → List Entry
  | 0 => heap
  | i + 1 => heapifyAux (siftup heap (heap.getD i d0) i i) i

/-- `heapq.heapify(x)`. -/
def heapify (heap : List Entry) : List Entry :=
  heapifyAux heap (heap.length / 2)

/-- `bisect.bisect_left(a, x, lo, hi)`, verbatim binary search; on unsorted
input it returns whatever the textbook loop returns. -/
def bisect_left (a : List Nat) (x : Nat) (lo hi : Nat) : Nat :=
  if lo < hi then
    if a.getD ((lo + hi) / 2) 0 < x then bisect_left a x ((lo + hi) / 2 + 1) hi
    else bisect_left a x lo ((lo + hi) / 2)
  else lo
termination_by hi - lo
decreasing_by all_goals omega

/-- `bisect.bisect_right(a, x, lo, hi)`. -/
def bisect_right (a : List Nat) (x : Nat) (lo hi : Nat) : Nat :=
  if lo < hi then
    if x < a.getD ((lo + hi) / 2) 0 then bisect_right a x lo ((lo + hi) / 2)
    else bisect_right a x ((lo + hi) / 2 + 1) hi
  else lo
termination_by hi - lo
decreasing_by all_goals omega

end Heapq

namespace TimeBasedStorageHeap

/-- The heap backend state: `self._heap`, a Python list managed by `heapq`. -/
abbrev Store := List Entry

/-- `TimeBasedStorageHeap.add` (core/heap.py:19): the duplicate check only
compares against the heap root `self._heap[0][0]`, then pushes. -/
def add (h : Store) (t v : Nat) : Except String Store :=
  if h.head?.any (fun e => e.1 == t) then Except.error "Value already exists at timestamp"
  else Except.ok (Heapq.heappush h (t, v))

/-- The list comprehension `[ts for ts, _ in self._heap]`. -/
def tslist (h : Store) : List Nat :=
  h.map Prod.fst

/-- `TimeBasedStorageHeap.get_range` (core/heap.py:35): binary searches on the
raw heap array, then slices `self._heap[start_idx:end_idx]`. -/
def get_range (h : Store) (s e : Nat) : List Nat :=
  ((h.drop (Heapq.bisect_left (tslist h) s 0 h.length)).take
      (Heapq.bisect_right (tslist h) e 0 h.length -
        Heapq.bisect_left (tslist h) s 0 h.length)).map Prod.snd

/-- `TimeBasedStorageHeap.get_value_at` (core/heap.py:108). -/
def get_value_at (h : Store) (t : Nat) : Option Nat :=
  match h.get? (Heapq.bisect_left (tslist h) t 0 h.length) with
  | some e => if e.1 == t then some e.2 else none
  | none => none

/-- `TimeBasedStorageHeap.remove` (core/heap.py:124): binary search, then
`pop(idx)` and `heapq.heapify`. -/
def remove (h : Store) (t : Nat) : Store × Bool :=
  match h.get? (Heapq.bisect_left (tslist h) t 0 h.length) with
  | some e =>
    if e.1 == t then
      (Heapq.heapify (h.eraseIdx (Heapq.bisect_left (tslist h) t 0 h.length)), true)
    else (h, false)
  | none => (h, false)

/-- `TimeBasedStorageHeap.get_earliest` (core/heap.py:68): the heap root. -/
def get_earliest (h : Store) : Option Entry :=
  h.head?

/-- `TimeBasedStorageHeap.get_latest` (core/heap.py:77): bisect for
`datetime.max` and take the element one before that index.  `maxTs` stands for
`datetime.max`; every storable timestamp is at most `maxTs`. -/
def get_latest (maxTs : Nat) (h : Store) : Option Entry :=
  if h.isEmpty then none
  else
    let latest_idx : Int := (Heapq.bisect_right (tslist h) maxTs 0 h.length : Int) - 1
    if 0 ≤ latest_idx then h.get? latest_idx.toNat else none

/-- `TimeBasedStorageHeap.size` (core/heap.py:144). -/
def size (h : Store) : Nat :=
  h.length

/-- `TimeBasedStorageHeap.is_empty` (core/heap.py:153). -/
def is_empty (h : Store) : Bool :=
  h.length == 0

end TimeBasedStorageHeap

namespace TimeBasedStorageRBTree

/-- The balanced-tree backend state: `self._storage`, a `SortedDict`,
i.e. a key-sorted association list with unique keys. -/
abbrev Store := List Entry

/-- `SortedDict.__setitem__`: place `(t, v)` at its ordered position,
replacing the entry already keyed `t` if there is one. -/
def insertSorted (l : Store) (t v : Nat) : Store :=
  match l with
  | [] => [(t, v)]
  | q :: rest =>
    if t < q.1 then (t, v) :: q :: rest
    else if t == q.1 then (t, v) :: rest
    else q :: insertSorted rest t v

/-- `TimeBasedStorageRBTree.add` (core/rbtree.py:30). -/
def add (l : Store) (t v : Nat) : Except String Store :=
  if keyMem l t then Except.error "Value already exists at timestamp"
  else Except.ok (insertSorted l t v)

/-- `TimeBasedStorageRBTree.add_unique_timestamp` (core/rbtree.py:45). -/
def add_unique_timestamp (l : Store) (t v offset : Nat) : Store × Nat :=
  if keyMem l t = false then (insertSorted l t v, t)
  else (insertSorted l (t + offset) v, t + offset)

/-- The records `irange(start, end)` draws from: the entries with timestamp in
`[start, end]`, in storage (ascending-key) order. -/
def range_records (l : Store) (s e : Nat) : List Entry :=
  l.filter (fun p => s ≤ p.1 && p.1 ≤ e)

/-- `TimeBasedStorageRBTree.get_range` (core/rbtree.py:68): the values of the
in-range entries, iterated with `irange` in storage order. -/
def get_range (l : Store) (s e : Nat) : List Nat :=
  (range_records l s e).map Prod.snd

/-- `TimeBasedStorageRBTree.get_value_at` (core/rbtree.py:118). -/
def get_value_at (l : Store) (t : Nat) : Option Nat :=
  keyGet l t

/-- `TimeBasedStorageRBTree.remove` (core/rbtree.py:130). -/
def remove (l : Store) (t : Nat) : Store × Bool :=
  if keyMem l t then (keyDel l t, true) else (l, false)

/-- `TimeBasedStorageRBTree.size` (core/rbtree.py:145). -/
def size (l : Store) : Nat :=
  l.length

/-- `TimeBasedStorageRBTree.is_empty` (core/rbtree.py:154). -/
def is_empty (l : Store) : Bool :=
  l.length == 0

/-- The `SortedDict` well-formedness invariant: keys strictly ascending. -/
def SortedKeys (l : Store) : Prop :=
  List.Pairwise (fun p q : Entry => p.1 < q.1) l

instance : DecidablePred SortedKeys := fun l =>
  List.instDecidablePairwise l

end TimeBasedStorageRBTree

/-- One call in an operation history against a hash or tree backend.  The
`offset` of `addUnique` is the value `random.randint` drew for that call. -/
inductive Op where
  | add (t v : Nat)
  | addUnique (t v offset : Nat)
  | remove (t : Nat)

/-- One call in an operation history against the heap backend (which
implements only `add` and `remove` of the mutators). -/
inductive HOp where
  | add (t v : Nat)
  | remove (t : Nat)

/-- Running tally of an operation history: the store, the number of successful
`add`/`add_unique` calls, the number of successful `remove` calls, and whether
every collision-offset insert of an `add_unique` call hit a fresh timestamp
(`clean = false` records that some perturbed insert overwrote an entry). -/
structure OpAcc where
  store : List Entry
  inserts : Nat
  removes : Nat
  clean : Bool

/-- Tally for heap-backend histories. -/
structure HAcc where
  store : List Entry
  inserts : Nat
  removes : Nat

/-- Apply one call to the hash backend; a raised `ValueError` leaves the store
unchanged and the call counts as unsuccessful. -/
def hashStep (a : OpAcc) : Op → OpAcc
  | Op.add t v =>
    match TimeBasedStorage.add a.store t v with
    | Except.ok d => { a with store := d, inserts := a.inserts + 1 }
    | Except.error _ => a
  | Op.addUnique t v off =>
    { a with
      store := (TimeBasedStorage.add_unique_timestamp a.store t v off).1
      inserts := a.inserts + 1
      clean := a.clean && !(keyMem a.store t && keyMem a.store (t + off)) }
  | Op.remove t =>
    { a with
      store := (TimeBasedStorage.remove a.store t).1
      removes := a.removes + (if (TimeBasedStorage.remove a.store t).2 then 1 else 0) }

/-- Run a history against an initially empty hash backend. -/
def hashExec (ops : List Op) : OpAcc :=
  ops.foldl hashStep ⟨[], 0, 0, true⟩

/-- Apply one call to the balanced-tree backend. -/
def rbStep (a : OpAcc) : Op → OpAcc
  | Op.add t v =>
    match TimeBasedStorageRBTree.add a.store t v with
    | Except.ok l => { a with store := l, inserts := a.inserts + 1 }
    | Except.error _ => a
  | Op.addUnique t v off =>
    { a with
      store := (TimeBasedStorageRBTree.add_unique_timestamp a.store t v off).1
      inserts := a.inserts + 1
      clean := a.clean && !(keyMem a.store t && keyMem a.store (t + off)) }
  | Op.remove t =>
    { a with
      store := (TimeBasedStorageRBTree.remove a.store t).1
      removes := a.removes + (if (TimeBasedStorageRBTree.remove a.store t).2 then 1 else 0) }

/-- Run a history against an initially empty balanced-tree backend. -/
def rbExec (ops : List Op) : OpAcc :=
  ops.foldl rbStep ⟨[], 0, 0, true⟩

/-- Apply one call to the heap backend. -/
def heapStep (a : HAcc) : HOp → HAcc
  | HOp.add t v =>
    match TimeBasedStorageHeap.add a.store t v with
    | Except.ok h => { a with store := h, inserts := a.inserts + 1 }
    | Except.error _ => a
  | HOp.remove t =>
    { a with
      store := (TimeBasedStorageHeap.remove a.store t).1
      removes := a.removes + (if (TimeBasedStorageHeap.remove a.store t).2 then 1 else 0) }

/-- Run a history against an initially empty heap backend. -/
def heapExec (ops : List HOp) : HAcc :=
  ops.foldl heapStep ⟨[], 0, 0⟩

/-- Serialized run of a batch of `add` calls through
`ThreadSafeTimeBasedStorageRBTree.add` (concurrent/thread_safe_rbtree.py:26):
each call holds the wrapper's lock for its whole duration, so a concurrent run
of `add` calls is observed as some interleaving, i.e. as such a list.  An
uncaught `ValueError` aborts the run. -/
def rbAddAll : List Entry → TimeBasedStorageRBTree.Store → Option TimeBasedStorageRBTree.Store
  | [], l => some l
  | p :: rest, l =>
    match TimeBasedStorageRBTree.add l p.1 p.2 with
    | Except.ok l2 => rbAddAll rest l2
    | Except.error _ => none

/-- Serialized run of a batch of `add` calls through
`ThreadSafeTimeBasedStorageHeap.add` (concurrent/thread_safe_heap.py:22). -/
def heapAddAll : List Entry → TimeBasedStorageHeap.Store → Option TimeBasedStorageHeap.Store
  | [], h => some h
  | p :: rest, h =>
    match TimeBasedStorageHeap.add h p.1 p.2 with
    | Except.ok h2 => heapAddAll rest h2
    | Except.error _ => none

theorem keyMem_iff (d : List Entry) (t : Nat) : keyMem d t = true ↔ t ∈ keysOf d := by
  simp [keyMem, keysOf, List.any_eq_true, List.mem_map]

theorem keyDel_eq_self (d : List Entry) (t : Nat) (h : keyMem d t = false) :
    keyDel d t = d := by
  rw [keyDel, List.filter_eq_self]
  intro p hp
  have := List.any_eq_false.mp h p hp
  simpa using this

theorem keyDel_length (d : List Entry) (t : Nat) (hn : (keysOf d).Nodup)
    (hm : keyMem d t = true) : (keyDel d t).length + 1 = d.length := by
  induction d with
  | nil => simp [keyMem] at hm
  | cons p rest ih =>
    rw [keysOf, List.map_cons, List.nodup_cons] at hn
    by_cases hp : p.1 = t
    · have hrest : keyMem rest t = false := by
        rw [Bool.eq_false_iff]
        intro hmem
        exact hn.1 (hp ▸ (keyMem_iff rest t).mp hmem)
      have h1 : keyDel (p :: rest) t = keyDel rest t := by
        rw [keyDel, keyDel, List.filter_cons]
        simp [hp]
      rw [h1, keyDel_eq_self rest t hrest]
      simp
    · have hmem : keyMem rest t = true := by
        rcases List.any_eq_true.mp hm with ⟨q, hq, he⟩
        rcases List.mem_cons.mp hq with rfl | hq2
        · exact absurd (by simpa using he) hp
        · exact List.any_eq_true.mpr ⟨q, hq2, he⟩
      have := ih hn.2 hmem
      simp only [keyDel] at this ⊢
      simp [List.filter_cons, hp, this]

theorem keysOf_keyDel_sublist (d : List Entry) (t : Nat) :
    (keysOf (keyDel d t)).Sublist (keysOf d) :=
  (List.filter_sublist d).map Prod.fst

theorem dictAssign_length_mem (d : List Entry) (t v : Nat) (h : keyMem d t = true) :
    (TimeBasedStorage.dictAssign d t v).length = d.length := by
  simp [TimeBasedStorage.dictAssign, h]

theorem dictAssign_length_not (d : List Entry) (t v : Nat) (h : keyMem d t = false) :
    (TimeBasedStorage.dictAssign d t v).length = d.length + 1 := by
  simp [TimeBasedStorage.dictAssign, h]

theorem keysOf_dictAssign_mem (d : List Entry) (t v : Nat) (h : keyMem d t = true) :
    keysOf (TimeBasedStorage.dictAssign d t v) = keysOf d := by
  simp only [TimeBasedStorage.dictAssign, h, if_true, keysOf, List.map_map]
  apply List.map_congr_left
  intro p _
  by_cases hp : p.1 = t <;> simp [hp]

theorem keysOf_dictAssign_not (d : List Entry) (t v : Nat) (h : keyMem d t = false) :
    keysOf (TimeBasedStorage.dictAssign d t v) = keysOf d ++ [t] := by
  simp [TimeBasedStorage.dictAssign, h, keysOf]

theorem find?_eq_none_of_keyMem_false (d : List Entry) (t : Nat) (h : keyMem d t = false) :
    d.find? (fun p => p.1 == t) = none := by
  rw [List.find?_eq_none]
  intro p hp
  simpa using List.any_eq_false.mp h p hp

theorem keyGet_append_single (d : List Entry) (t v : Nat) (h : keyMem d t = false) :
    keyGet (d ++ [(t, v)]) t = some v := by
  induction d with
  | nil => simp [keyGet]
  | cons p rest ih =>
    simp only [keyMem, List.any_cons, Bool.or_eq_false_iff] at h
    simp only [keyGet, List.cons_append, List.find?]
    rw [h.1]
    exact ih h.2

theorem keyGet_dictAssign_self (d : List Entry) (t v : Nat) :
    keyGet (TimeBasedStorage.dictAssign d t v) t = some v := by
  by_cases h : keyMem d t
  · simp only [TimeBasedStorage.dictAssign, h, if_true]
    induction d with
    | nil => simp [keyMem] at h
    | cons p rest ih =>
      by_cases hp : p.1 = t
      · simp [keyGet, List.find?, hp]
      · have hrest : keyMem rest t := by
          simp only [keyMem, List.any_cons, Bool.or_eq_true] at h
          rcases h with h1 | h2
          · exact absurd (by simpa using h1) hp
          · exact h2
        have := ih hrest
        simp only [keyGet, List.map_cons, List.find?] at this ⊢
        have hpt : (p.1 == t) = false := by simpa using hp
        rw [if_neg (by simpa using hp)]
        simpa [hpt] using this
  · simp only [TimeBasedStorage.dictAssign, Bool.not_eq_true] at h ⊢
    rw [if_neg (by simp [h])]
    exact keyGet_append_single d t v h

theorem mem_insertSorted (l : List Entry) (t v : Nat) (p : Entry)
    (h : p ∈ TimeBasedStorageRBTree.insertSorted l t v) : p = (t, v) ∨ p ∈ l := by
  induction l with
  | nil => simpa [TimeBasedStorageRBTree.insertSorted] using h
  | cons q rest ih =>
    rw [TimeBasedStorageRBTree.insertSorted] at h
    by_cases h1 : t < q.1
    · rw [if_pos h1] at h
      rcases List.mem_cons.mp h with rfl | h2
      · exact Or.inl rfl
      · exact Or.inr h2
    · rw [if_neg h1] at h
      by_cases h2 : t = q.1
      · rw [if_pos (by simpa using h2)] at h
        rcases List.mem_cons.mp h with rfl | h3
        · exact Or.inl rfl
        · exact Or.inr (List.mem_cons_of_mem q h3)
      · rw [if_neg (by simpa using h2)] at h
        rcases List.mem_cons.mp h with h3 | h3
        · exact Or.inr (h3 ▸ List.mem_cons_self _ _)
        · rcases ih h3 with h4 | h4
          · exact Or.inl h4
          · exact Or.inr (List.mem_cons_of_mem q h4)

theorem insertSorted_sortedKeys (l : List Entry) (t v : Nat)
    (h : TimeBasedStorageRBTree.SortedKeys l) :
    TimeBasedStorageRBTree.SortedKeys (TimeBasedStorageRBTree.insertSorted l t v) := by
  induction l with
  | nil => simp [TimeBasedStorageRBTree.insertSorted, TimeBasedStorageRBTree.SortedKeys]
  | cons q rest ih =>
    rw [TimeBasedStorageRBTree.SortedKeys, List.pairwise_cons] at h
    rw [TimeBasedStorageRBTree.insertSorted]
    by_cases h1 : t < q.1
    · rw [if_pos h1, TimeBasedStorageRBTree.SortedKeys, List.pairwise_cons]
      refine ⟨?_, List.pairwise_cons.mpr h⟩
      intro r hr
      rcases List.mem_cons.mp hr with rfl | h2
      · exact h1
      · exact lt_trans h1 (h.1 r h2)
    · rw [if_neg h1]
      by_cases h2 : t = q.1
      · rw [if_pos (by simpa using h2), TimeBasedStorageRBTree.SortedKeys, List.pairwise_cons]
        exact ⟨fun r hr => h2 ▸ h.1 r hr, h.2⟩
      · rw [if_neg (by simpa using h2), TimeBasedStorageRBTree.SortedKeys, List.pairwise_cons]
        refine ⟨?_, ih h.2⟩
        intro r hr
        rcases mem_insertSorted rest t v r hr with rfl | h3
        · simp only
          omega
        · exact h.1 r h3

theorem insertSorted_perm (l : List Entry) (t v : Nat) (h : keyMem l t = false) :
    (TimeBasedStorageRBTree.insertSorted l t v).Perm ((t, v) :: l) := by
  induction l with
  | nil => simp [TimeBasedStorageRBTree.insertSorted]
  | cons q rest ih =>
    simp only [keyMem, List.any_cons, Bool.or_eq_false_iff] at h
    have hne : t ≠ q.1 := fun he => by simp [he.symm] at h
    rw [TimeBasedStorageRBTree.insertSorted]
    by_cases h1 : t < q.1
    · rw [if_pos h1]
    · rw [if_neg h1, if_neg (by simpa using hne)]
      exact ((ih h.2).cons q).trans (List.Perm.swap (t, v) q rest)

theorem insertSorted_length_not (l : List Entry) (t v : Nat) (h : keyMem l t = false) :
    (TimeBasedStorageRBTree.insertSorted l t v).length = l.length + 1 := by
  simpa using (insertSorted_perm l t v h).length_eq

theorem insertSorted_length_mem (l : List Entry) (t v : Nat)
    (hs : TimeBasedStorageRBTree.SortedKeys l) (h : keyMem l t = true) :
    (TimeBasedStorageRBTree.insertSorted l t v).length = l.length := by
  induction l with
  | nil => simp [keyMem] at h
  | cons q rest ih =>
    rw [TimeBasedStorageRBTree.SortedKeys, List.pairwise_cons] at hs
    rw [TimeBasedStorageRBTree.insertSorted]
    by_cases h1 : t < q.1
    · exfalso
      rcases List.any_eq_true.mp h with ⟨r, hr, he⟩
      have he2 : r.1 = t := by simpa using he
      rcases List.mem_cons.mp hr with rfl | h2
      · omega
      · have := hs.1 r h2
        omega
    · rw [if_neg h1]
      by_cases h2 : t = q.1
      · rw [if_pos (by simpa using h2)]
        simp
      · rw [if_neg (by simpa using h2)]
        have hmem : keyMem rest t = true := by
          rcases List.any_eq_true.mp h with ⟨r, hr, he⟩
          have he2 : r.1 = t := by simpa using he
          rcases List.mem_cons.mp hr with h3 | h3
          · exact absurd (h3 ▸ he2 : q.1 = t) (fun hx => h2 hx.symm)
          · exact List.any_eq_true.mpr ⟨r, h3, he⟩
        simp [ih hs.2 hmem]

theorem keyGet_insertSorted_self (l : List Entry) (t v : Nat) :
    keyGet (TimeBasedStorageRBTree.insertSorted l t v) t = some v := by
  induction l with
  | nil => simp [TimeBasedStorageRBTree.insertSorted, keyGet]
  | cons q rest ih =>
    rw [TimeBasedStorageRBTree.insertSorted]
    by_cases h1 : t < q.1
    · rw [if_pos h1]
      simp [keyGet, List.find?]
    · rw [if_neg h1]
      by_cases h2 : t = q.1
      · rw [if_pos (by simpa using h2)]
        simp [keyGet, List.find?]
      · rw [if_neg (by simpa using h2)]
        have hne : (q.1 == t) = false := by
          simp only [beq_eq_false_iff_ne]
          exact fun he => h2 he.symm
        simp only [keyGet, List.find?, hne] at ih ⊢
        exact ih

theorem sortedKeys_nodup (l : List Entry) (h : TimeBasedStorageRBTree.SortedKeys l) :
    (keysOf l).Nodup := by
  have h2 : List.Pairwise (· < ·) (l.map Prod.fst) :=
    List.pairwise_map.mpr h
  exact h2.imp Nat.ne_of_lt

theorem sortedKeys_keyDel (l : List Entry) (t : Nat)
    (h : TimeBasedStorageRBTree.SortedKeys l) :
    TimeBasedStorageRBTree.SortedKeys (keyDel l t) :=
  h.sublist (List.filter_sublist l)

theorem siftdown_length (x : Entry) (pos : Nat) : ∀ heap startpos,
    (Heapq.siftdown x heap startpos pos).length = heap.length := by
  induction pos using Nat.strong_induction_on with
  | _ pos ih =>
    intro heap startpos
    rw [Heapq.siftdown]
    split
    · split
      · rw [ih ((pos - 1) / 2) (by omega)]
        simp
      · simp
    · simp

theorem siftup_length (heap : List Entry) (x : Entry) (startpos pos : Nat) :
    (Heapq.siftup heap x startpos pos).length = heap.length := by
  induction heap, x, startpos, pos using Heapq.siftup.induct with
  | case1 heap x startpos pos h ih =>
    rw [Heapq.siftup, if_pos h]
    rw [ih]
    simp
  | case2 heap x startpos pos h =>
    rw [Heapq.siftup, if_neg h, siftdown_length]
    simp

theorem heapifyAux_length (n : Nat) : ∀ heap, (Heapq.heapifyAux heap n).length = heap.length := by
  induction n with
  | zero => intro heap; rw [Heapq.heapifyAux]
  | succ i ih =>
    intro heap
    rw [Heapq.heapifyAux, ih, siftup_length]

theorem heapify_length (heap : List Entry) : (Heapq.heapify heap).length = heap.length := by
  rw [Heapq.heapify, heapifyAux_length]

theorem heappush_length (heap : List Entry) (x : Entry) :
    (Heapq.heappush heap x).length = heap.length + 1 := by
  rw [Heapq.heappush, siftdown_length]
  simp

theorem set_set_count {α : Type} [DecidableEq α] (l : List α) (i j : Nat) (x c : α)
    (hi : i < l.length) (hj : j < l.length) (hne : j ≠ i) :
    ((l.set i (l.get ⟨j, hj⟩)).set j x).count c = (l.set i x).count c := by
  have h1 : j < (l.set i (l.get ⟨j, hj⟩)).length := by simpa using hj
  rw [List.count_set _ _ _ _ h1, List.count_set _ _ _ _ hi, List.count_set _ _ _ _ hi]
  have h2 : (l.set i (l.get ⟨j, hj⟩))[j] = l[j] := List.getElem_set_ne (by omega) h1
  rw [h2]
  have h3 : l.get ⟨j, hj⟩ = l[j] := rfl
  rw [h3]
  omega

theorem siftdown_perm (x : Entry) (pos : Nat) : ∀ heap startpos, pos < heap.length →
    List.Perm (Heapq.siftdown x heap startpos pos) (heap.set pos x) := by
  induction pos using Nat.strong_induction_on with
  | _ pos ih =>
    intro heap startpos hlt
    rw [Heapq.siftdown]
    split
    · split
      · have hp : (pos - 1) / 2 < pos := by omega
        have hp2 : (pos - 1) / 2 < heap.length := by omega
        have hrec := ih ((pos - 1) / 2) hp
          (heap.set pos (heap.getD ((pos - 1) / 2) Heapq.d0)) startpos (by simpa using hp2)
        refine hrec.trans ?_
        rw [List.perm_iff_count]
        intro c
        have hgd : heap.getD ((pos - 1) / 2) Heapq.d0 = heap.get ⟨(pos - 1) / 2, hp2⟩ := by
          simp [List.getD_eq_getElem?_getD, List.getElem?_eq_getElem hp2]
        rw [hgd]
        exact set_set_count heap pos ((pos - 1) / 2) x c hlt hp2 (by omega)
      · exact List.Perm.refl _
    · exact List.Perm.refl _

theorem append_set_last (h : List Entry) (x y : Entry) :
    (h ++ [x]).set h.length y = h ++ [y] := by
  induction h with
  | nil => simp
  | cons q rest ih => simp [List.set, ih]

theorem heappush_perm (h : List Entry) (x : Entry) :
    (Heapq.heappush h x).Perm (x :: h) := by
  rw [Heapq.heappush]
  have h1 := siftdown_perm x h.length (h ++ [x]) 0 (by simp)
  rw [append_set_last] at h1
  exact h1.trans (List.perm_append_singleton x h)

theorem keyMem_false_not_mem (d : List Entry) (t : Nat) (h : keyMem d t = false) :
    t ∉ keysOf d := by
  intro hmem
  rw [← keyMem_iff] at hmem
  rw [h] at hmem
  cases hmem

theorem nodup_append_key (d : List Entry) (t : Nat) (hn : (keysOf d).Nodup)
    (hm : keyMem d t = false) : (keysOf d ++ [t]).Nodup := by
  rw [List.nodup_append]
  refine ⟨hn, List.nodup_singleton t, ?_⟩
  intro x hx hx2
  rw [List.mem_singleton] at hx2
  exact keyMem_false_not_mem d t hm (hx2 ▸ hx)

theorem hashStep_inv (a : OpAcc) (op : Op)
    (hn : (keysOf a.store).Nodup)
    (hc : a.clean = true → a.store.length + a.removes = a.inserts) :
    (keysOf (hashStep a op).store).Nodup ∧
      ((hashStep a op).clean = true →
        (hashStep a op).store.length + (hashStep a op).removes = (hashStep a op).inserts) := by
  cases op with
  | add t v =>
    cases hm : keyMem a.store t with
    | true => simpa [hashStep, TimeBasedStorage.add, hm] using ⟨hn, hc⟩
    | false =>
      simp only [hashStep, TimeBasedStorage.add, hm, Bool.false_eq_true, if_false]
      constructor
      · have hk : keysOf (a.store ++ [(t, v)]) = keysOf a.store ++ [t] := by simp [keysOf]
        rw [hk]
        exact nodup_append_key a.store t hn hm
      · intro hcl
        have := hc hcl
        simp only [List.length_append, List.length_cons, List.length_nil]
        omega
  | addUnique t v off =>
    cases hm : keyMem a.store t with
    | false =>
      have hstep : TimeBasedStorage.add_unique_timestamp a.store t v off
          = (TimeBasedStorage.dictAssign a.store t v, t) := by
        rw [TimeBasedStorage.add_unique_timestamp, if_pos hm]
      simp only [hashStep, hstep, hm, Bool.false_and, Bool.not_false, Bool.and_true]
      constructor
      · rw [keysOf_dictAssign_not a.store t v hm]
        exact nodup_append_key a.store t hn hm
      · intro hcl
        have := hc hcl
        rw [dictAssign_length_not a.store t v hm]
        omega
    | true =>
      have hstep : TimeBasedStorage.add_unique_timestamp a.store t v off
          = (TimeBasedStorage.dictAssign a.store (t + off) v, t + off) := by
        rw [TimeBasedStorage.add_unique_timestamp, if_neg (by simp [hm])]
      cases hm2 : keyMem a.store (t + off) with
      | true =>
        simp only [hashStep, hstep, hm, hm2, Bool.and_self, Bool.not_true, Bool.and_false]
        constructor
        · rw [keysOf_dictAssign_mem a.store (t + off) v hm2]
          exact hn
        · simp
      | false =>
        simp only [hashStep, hstep, hm, hm2, Bool.and_false, Bool.not_false, Bool.and_true]
        constructor
        · rw [keysOf_dictAssign_not a.store (t + off) v hm2]
          exact nodup_append_key a.store (t + off) hn hm2
        · intro hcl
          have := hc hcl
          rw [dictAssign_length_not a.store (t + off) v hm2]
          omega
  | remove t =>
    cases hm : keyMem a.store t with
    | true =>
      simp only [hashStep, TimeBasedStorage.remove, hm, if_pos rfl, if_true]
      constructor
      · exact hn.sublist (keysOf_keyDel_sublist a.store t)
      · intro hcl
        have := hc hcl
        have h2 := keyDel_length a.store t hn hm
        omega
    | false =>
      simpa [hashStep, TimeBasedStorage.remove, hm] using ⟨hn, hc⟩

theorem hashExec_inv (ops : List Op) : ∀ a : OpAcc,
    (keysOf a.store).Nodup →
    (a.clean = true → a.store.length + a.removes = a.inserts) →
    (keysOf (ops.foldl hashStep a).store).Nodup ∧
      ((ops.foldl hashStep a).clean = true →
        (ops.foldl hashStep a).store.length + (ops.foldl hashStep a).removes =
          (ops.foldl hashStep a).inserts) := by
  induction ops with
  | nil => intro a hn hc; exact ⟨hn, hc⟩
  | cons op rest ih =>
    intro a hn hc
    have h1 := hashStep_inv a op hn hc
    exact ih (hashStep a op) h1.1 h1.2

theorem rbStep_inv (a : OpAcc) (op : Op)
    (hs : TimeBasedStorageRBTree.SortedKeys a.store)
    (hc : a.clean = true → a.store.length + a.removes = a.inserts) :
    TimeBasedStorageRBTree.SortedKeys (rbStep a op).store ∧
      ((rbStep a op).clean = true →
        (rbStep a op).store.length + (rbStep a op).removes = (rbStep a op).inserts) := by
  cases op with
  | add t v =>
    cases hm : keyMem a.store t with
    | true => simpa [rbStep, TimeBasedStorageRBTree.add, hm] using ⟨hs, hc⟩
    | false =>
      simp only [rbStep, TimeBasedStorageRBTree.add, hm, Bool.false_eq_true, if_false]
      refine ⟨insertSorted_sortedKeys a.store t v hs, ?_⟩
      intro hcl
      have := hc hcl
      rw [insertSorted_length_not a.store t v hm]
      omega
  | addUnique t v off =>
    cases hm : keyMem a.store t with
    | false =>
      have hstep : TimeBasedStorageRBTree.add_unique_timestamp a.store t v off
          = (TimeBasedStorageRBTree.insertSorted a.store t v, t) := by
        rw [TimeBasedStorageRBTree.add_unique_timestamp, if_pos hm]
      simp only [rbStep, hstep, hm, Bool.false_and, Bool.not_false, Bool.and_true]
      refine ⟨insertSorted_sortedKeys a.store t v hs, ?_⟩
      intro hcl
      have := hc hcl
      rw [insertSorted_length_not a.store t v hm]
      omega
    | true =>
      have hstep : TimeBasedStorageRBTree.add_unique_timestamp a.store t v off
          = (TimeBasedStorageRBTree.insertSorted a.store (t + off) v, t + off) := by
        rw [TimeBasedStorageRBTree.add_unique_timestamp, if_neg (by simp [hm])]
      cases hm2 : keyMem a.store (t + off) with
      | true =>
        simp only [rbStep, hstep, hm, hm2, Bool.and_self, Bool.not_true, Bool.and_false]
        exact ⟨insertSorted_sortedKeys a.store (t + off) v hs, by simp⟩
      | false =>
        simp only [rbStep, hstep, hm, hm2, Bool.and_false, Bool.not_false, Bool.and_true]
        refine ⟨insertSorted_sortedKeys a.store (t + off) v hs, ?_⟩
        intro hcl
        have := hc hcl
        rw [insertSorted_length_not a.store (t + off) v hm2]
        omega
  | remove t =>
    cases hm : keyMem a.store t with
    | true =>
      simp only [rbStep, TimeBasedStorageRBTree.remove, hm, if_pos rfl, if_true]
      refine ⟨sortedKeys_keyDel a.store t hs, ?_⟩
      intro hcl
      have := hc hcl
      have h2 := keyDel_length a.store t (sortedKeys_nodup a.store hs) hm
      omega
    | false =>
      simpa [rbStep, TimeBasedStorageRBTree.remove, hm] using ⟨hs, hc⟩

theorem rbExec_inv (ops : List Op) : ∀ a : OpAcc,
    TimeBasedStorageRBTree.SortedKeys a.store →
    (a.clean = true → a.store.length + a.removes = a.inserts) →
    TimeBasedStorageRBTree.SortedKeys (ops.foldl rbStep a).store ∧
      ((ops.foldl rbStep a).clean = true →
        (ops.foldl rbStep a).store.length + (ops.foldl rbStep a).removes =
          (ops.foldl rbStep a).inserts) := by
  induction ops with
  | nil => intro a hs hc; exact ⟨hs, hc⟩
  | cons op rest ih =>
    intro a hs hc
    have h1 := rbStep_inv a op hs hc
    exact ih (rbStep a op) h1.1 h1.2

theorem heapRemove_cases (h : List Entry) (t : Nat) :
    (TimeBasedStorageHeap.remove h t =
        (Heapq.heapify (h.eraseIdx (Heapq.bisect_left (TimeBasedStorageHeap.tslist h) t 0 h.length)),
          true) ∧
      Heapq.bisect_left (TimeBasedStorageHeap.tslist h) t 0 h.length < h.length) ∨
    TimeBasedStorageHeap.remove h t = (h, false) := by
  rw [TimeBasedStorageHeap.remove]
  cases heq : h.get? (Heapq.bisect_left (TimeBasedStorageHeap.tslist h) t 0 h.length) with
  | none => right; rfl
  | some e =>
    by_cases hp : e.1 = t
    · left
      refine ⟨by simp [hp], ?_⟩
      rcases List.get?_eq_some.mp heq with ⟨hl, _⟩
      exact hl
    · right
      simp [hp]

theorem heapStep_inv (a : HAcc) (op : HOp)
    (hc : a.store.length + a.removes = a.inserts) :
    (heapStep a op).store.length + (heapStep a op).removes = (heapStep a op).inserts := by
  cases op with
  | add t v =>
    cases hchk : (a.store.head?.any fun e => e.1 == t) with
    | true => simpa [heapStep, TimeBasedStorageHeap.add, hchk] using hc
    | false =>
      simp only [heapStep, TimeBasedStorageHeap.add, hchk, Bool.false_eq_true, if_false]
      rw [heappush_length]
      omega
  | remove t =>
    rcases heapRemove_cases a.store t with ⟨heq, hlt⟩ | heq
    · have h2 := List.length_eraseIdx_add_one hlt
      simp only [heapStep, heq, if_true, heapify_length]
      omega
    · simp only [heapStep, heq, Bool.false_eq_true, if_false]
      omega

theorem heapExec_inv (ops : List HOp) : ∀ a : HAcc,
    a.store.length + a.removes = a.inserts →
    (ops.foldl heapStep a).store.length + (ops.foldl heapStep a).removes =
      (ops.foldl heapStep a).inserts := by
  induction ops with
  | nil => intro a hc; exact hc
  | cons op rest ih =>
    intro a hc
    exact ih (heapStep a op) (heapStep_inv a op hc)

theorem keyMem_perm (s1 s2 : List Entry) (hp : s1.Perm s2) (t : Nat) :
    keyMem s1 t = keyMem s2 t := by
  have hk : t ∈ keysOf s1 ↔ t ∈ keysOf s2 := (hp.map Prod.fst).mem_iff
  cases h2 : keyMem s2 t with
  | true => exact (keyMem_iff s1 t).mpr (hk.mpr ((keyMem_iff s2 t).mp h2))
  | false =>
    rw [Bool.eq_false_iff]
    intro hx
    have h3 : keyMem s2 t = true := (keyMem_iff s2 t).mpr (hk.mp ((keyMem_iff s1 t).mp hx))
    rw [h2] at h3
    cases h3

theorem rbAddAll_spec : ∀ (ins l : List Entry),
    (∀ t ∈ ins.map Prod.fst, keyMem l t = false) →
    (ins.map Prod.fst).Nodup →
    ∃ s, rbAddAll ins l = some s ∧ s.Perm (ins ++ l) := by
  intro ins
  induction ins with
  | nil => exact fun l _ _ => ⟨l, rfl, by simp⟩
  | cons p rest ih =>
    intro l hfresh hnodup
    have hm : keyMem l p.1 = false := hfresh p.1 (by simp)
    have hadd : TimeBasedStorageRBTree.add l p.1 p.2
        = Except.ok (TimeBasedStorageRBTree.insertSorted l p.1 p.2) := by
      rw [TimeBasedStorageRBTree.add, if_neg (by simp [hm])]
    have hperm1 := insertSorted_perm l p.1 p.2 hm
    have hnodup2 : (rest.map Prod.fst).Nodup := (List.nodup_cons.mp (by simpa using hnodup)).2
    have hfresh2 : ∀ t ∈ rest.map Prod.fst,
        keyMem (TimeBasedStorageRBTree.insertSorted l p.1 p.2) t = false := by
      intro t ht
      rw [keyMem_perm _ _ hperm1 t]
      have h1 : keyMem l t = false := hfresh t (by simp [ht])
      have h2 : p.1 ≠ t := by
        have h3 : p.1 ∉ rest.map Prod.fst := (List.nodup_cons.mp (by simpa using hnodup)).1
        exact fun he => h3 (he ▸ ht)
      simp only [keyMem, List.any_cons, Bool.or_eq_false_iff]
      exact ⟨by simpa using h2, h1⟩
    rcases ih (TimeBasedStorageRBTree.insertSorted l p.1 p.2) hfresh2 hnodup2 with ⟨s, hs, hsp⟩
    refine ⟨s, ?_, ?_⟩
    · rw [rbAddAll, hadd]
      exact hs
    · refine hsp.trans ?_
      refine (List.Perm.append_left rest hperm1).trans ?_
      exact List.perm_middle

theorem heapAdd_check_false (h : List Entry) (t : Nat) (hm : keyMem h t = false) :
    (h.head?.any fun e => e.1 == t) = false := by
  cases h with
  | nil => rfl
  | cons q rest =>
    simp only [keyMem, List.any_cons, Bool.or_eq_false_iff] at hm
    simp [hm.1]

theorem heapAddAll_spec : ∀ (ins h : List Entry),
    (∀ t ∈ ins.map Prod.fst, keyMem h t = false) →
    (ins.map Prod.fst).Nodup →
    ∃ s, heapAddAll ins h = some s ∧ s.Perm (ins ++ h) := by
  intro ins
  induction ins with
  | nil => exact fun h _ _ => ⟨h, rfl, by simp⟩
  | cons p rest ih =>
    intro h hfresh hnodup
    have hm : keyMem h p.1 = false := hfresh p.1 (by simp)
    have hadd : TimeBasedStorageHeap.add h p.1 p.2
        = Except.ok (Heapq.heappush h (p.1, p.2)) := by
      rw [TimeBasedStorageHeap.add, if_neg (by simp [heapAdd_check_false h p.1 hm])]
    have hperm1 : (Heapq.heappush h (p.1, p.2)).Perm ((p.1, p.2) :: h) :=
      heappush_perm h (p.1, p.2)
    have hnodup2 : (rest.map Prod.fst).Nodup := (List.nodup_cons.mp (by simpa using hnodup)).2
    have hfresh2 : ∀ t ∈ rest.map Prod.fst,
        keyMem (Heapq.heappush h (p.1, p.2)) t = false := by
      intro t ht
      rw [keyMem_perm _ _ hperm1 t]
      have h1 : keyMem h t = false := hfresh t (by simp [ht])
      have h2 : p.1 ≠ t := by
        have h3 : p.1 ∉ rest.map Prod.fst := (List.nodup_cons.mp (by simpa using hnodup)).1
        exact fun he => h3 (he ▸ ht)
      simp only [keyMem, List.any_cons, Bool.or_eq_false_iff]
      exact ⟨by simpa using h2, h1⟩
    rcases ih (Heapq.heappush h (p.1, p.2)) hfresh2 hnodup2 with ⟨s, hs, hsp⟩
    refine ⟨s, ?_, ?_⟩
    · rw [heapAddAll, hadd]
      exact hs
    · refine hsp.trans ?_
      refine (List.Perm.append_left rest hperm1).trans ?_
      exact List.perm_middle

/-- C1: after the successful adds of (3,30), (1,10), (2,20), the heap backend's
`get_range(2, 2)` misses the stored value 20 whose timestamp 2 lies in the
range, while the hash and tree backends both return exactly [20]; the three
backends are not cross-equivalent as sets. -/
theorem claim1_get_range_heap_divergence :
    TimeBasedStorageHeap.add [] 3 30 = Except.ok [(3, 30)] ∧
    TimeBasedStorageHeap.add [(3, 30)] 1 10 = Except.ok [(1, 10), (3, 30)] ∧
    TimeBasedStorageHeap.add [(1, 10), (3, 30)] 2 20 = Except.ok [(1, 10), (3, 30), (2, 20)] ∧
    TimeBasedStorageHeap.get_range [(1, 10), (3, 30), (2, 20)] 2 2 = [] ∧
    TimeBasedStorage.add [] 3 30 = Except.ok [(3, 30)] ∧
    TimeBasedStorage.add [(3, 30)] 1 10 = Except.ok [(3, 30), (1, 10)] ∧
    TimeBasedStorage.add [(3, 30), (1, 10)] 2 20 = Except.ok [(3, 30), (1, 10), (2, 20)] ∧
    TimeBasedStorage.get_range [(3, 30), (1, 10), (2, 20)] 2 2 = [20] ∧
    TimeBasedStorageRBTree.add [] 3 30 = Except.ok [(3, 30)] ∧
    TimeBasedStorageRBTree.add [(3, 30)] 1 10 = Except.ok [(1, 10), (3, 30)] ∧
    TimeBasedStorageRBTree.add [(1, 10), (3, 30)] 2 20 = Except.ok [(1, 10), (2, 20), (3, 30)] ∧
    TimeBasedStorageRBTree.get_range [(1, 10), (2, 20), (3, 30)] 2 2 = [20] := by
  refine ⟨?_, ?_, ?_, ?_, rfl, rfl, rfl, rfl, rfl, rfl, rfl, rfl⟩
  · simp [TimeBasedStorageHeap.add, Heapq.heappush, Heapq.siftdown, Heapq.entLt]
  · simp [TimeBasedStorageHeap.add, Heapq.heappush, Heapq.siftdown, Heapq.entLt]
  · simp [TimeBasedStorageHeap.add, Heapq.heappush, Heapq.siftdown, Heapq.entLt]
  · simp [TimeBasedStorageHeap.get_range, TimeBasedStorageHeap.tslist,
      Heapq.bisect_left, Heapq.bisect_right]

/-- C2: with the heap holding (1,10) and (2,20), a second add at the occupied
timestamp 2 does not fail: the root-only duplicate check misses it, and the
store ends up holding timestamp 2 twice.  The hash and tree backends reject the
same call. -/
theorem claim2_duplicate_add_heap_divergence :
    TimeBasedStorageHeap.add [] 1 10 = Except.ok [(1, 10)] ∧
    TimeBasedStorageHeap.add [(1, 10)] 2 20 = Except.ok [(1, 10), (2, 20)] ∧
    keyMem [(1, 10), (2, 20)] 2 = true ∧
    TimeBasedStorageHeap.add [(1, 10), (2, 20)] 2 30 = Except.ok [(1, 10), (2, 20), (2, 30)] ∧
    (keysOf [(1, 10), (2, 20), (2, 30)]).count 2 = 2 ∧
    TimeBasedStorage.add [(1, 10), (2, 20)] 2 30 = Except.error "Value already exists at timestamp" ∧
    TimeBasedStorageRBTree.add [(1, 10), (2, 20)] 2 30 = Except.error "Value already exists at timestamp" := by
  refine ⟨?_, ?_, rfl, ?_, by decide, rfl, rfl⟩
  · simp [TimeBasedStorageHeap.add, Heapq.heappush, Heapq.siftdown, Heapq.entLt]
  · simp [TimeBasedStorageHeap.add, Heapq.heappush, Heapq.siftdown, Heapq.entLt]
  · simp [TimeBasedStorageHeap.add, Heapq.heappush, Heapq.siftdown, Heapq.entLt]

/-- C3: after the successful adds of (3,30), (1,10), (2,20), the heap backend's
`get_value_at(2)` returns none although 20 was inserted at timestamp 2 (its
binary search runs over the unsorted heap array); the hash and tree backends
return 20. -/
theorem claim3_get_value_at_heap_divergence :
    TimeBasedStorageHeap.add [] 3 30 = Except.ok [(3, 30)] ∧
    TimeBasedStorageHeap.add [(3, 30)] 1 10 = Except.ok [(1, 10), (3, 30)] ∧
    TimeBasedStorageHeap.add [(1, 10), (3, 30)] 2 20 = Except.ok [(1, 10), (3, 30), (2, 20)] ∧
    TimeBasedStorageHeap.get_value_at [(1, 10), (3, 30), (2, 20)] 2 = none ∧
    TimeBasedStorage.get_value_at [(3, 30), (1, 10), (2, 20)] 2 = some 20 ∧
    TimeBasedStorageRBTree.get_value_at [(1, 10), (2, 20), (3, 30)] 2 = some 20 := by
  refine ⟨?_, ?_, ?_, ?_, rfl, rfl⟩
  · simp [TimeBasedStorageHeap.add, Heapq.heappush, Heapq.siftdown, Heapq.entLt]
  · simp [TimeBasedStorageHeap.add, Heapq.heappush, Heapq.siftdown, Heapq.entLt]
  · simp [TimeBasedStorageHeap.add, Heapq.heappush, Heapq.siftdown, Heapq.entLt]
  · simp [TimeBasedStorageHeap.get_value_at, TimeBasedStorageHeap.tslist, Heapq.bisect_left]

/-- C7: after the successful adds of (3,30), (1,10), (2,20), the heap backend's
`remove(2)` returns false and leaves the store unchanged although timestamp 2
is present (binary search over the unsorted heap array misses it); the hash and
tree backends remove it, report true, afterwards look it up as none, and their
size drops from 3 to 2. -/
theorem claim7_remove_heap_divergence :
    TimeBasedStorageHeap.add [] 3 30 = Except.ok [(3, 30)] ∧
    TimeBasedStorageHeap.add [(3, 30)] 1 10 = Except.ok [(1, 10), (3, 30)] ∧
    TimeBasedStorageHeap.add [(1, 10), (3, 30)] 2 20 = Except.ok [(1, 10), (3, 30), (2, 20)] ∧
    keyMem [(1, 10), (3, 30), (2, 20)] 2 = true ∧
    TimeBasedStorageHeap.remove [(1, 10), (3, 30), (2, 20)] 2 = ([(1, 10), (3, 30), (2, 20)], false) ∧
    TimeBasedStorage.remove [(3, 30), (1, 10), (2, 20)] 2 = ([(3, 30), (1, 10)], true) ∧
    TimeBasedStorage.get_value_at [(3, 30), (1, 10)] 2 = none ∧
    TimeBasedStorage.size [(3, 30), (1, 10), (2, 20)] = 3 ∧
    TimeBasedStorage.size [(3, 30), (1, 10)] = 2 ∧
    TimeBasedStorageRBTree.remove [(1, 10), (2, 20), (3, 30)] 2 = ([(1, 10), (3, 30)], true) ∧
    TimeBasedStorageRBTree.get_value_at [(1, 10), (3, 30)] 2 = none := by
  refine ⟨?_, ?_, ?_, rfl, ?_, rfl, rfl, rfl, rfl, rfl, rfl⟩
  · simp [TimeBasedStorageHeap.add, Heapq.heappush, Heapq.siftdown, Heapq.entLt]
  · simp [TimeBasedStorageHeap.add, Heapq.heappush, Heapq.siftdown, Heapq.entLt]
  · simp [TimeBasedStorageHeap.add, Heapq.heappush, Heapq.siftdown, Heapq.entLt]
  · simp [TimeBasedStorageHeap.remove, TimeBasedStorageHeap.tslist, Heapq.bisect_left]

/-- C8: after the successful adds of (3,30), (1,10), (2,20), the heap backend's
`get_earliest` correctly returns (1,10), but `get_latest` returns (2,20), the
last slot of the heap array, although the stored pair (3,30) has the largest
timestamp; on the empty store both return none.  `maxTs = 1000000` stands for
`datetime.max`, an upper bound of every stored timestamp. -/
theorem claim8_get_latest_heap_divergence :
    TimeBasedStorageHeap.add [] 3 30 = Except.ok [(3, 30)] ∧
    TimeBasedStorageHeap.add [(3, 30)] 1 10 = Except.ok [(1, 10), (3, 30)] ∧
    TimeBasedStorageHeap.add [(1, 10), (3, 30)] 2 20 = Except.ok [(1, 10), (3, 30), (2, 20)] ∧
    TimeBasedStorageHeap.get_earliest [(1, 10), (3, 30), (2, 20)] = some (1, 10) ∧
    TimeBasedStorageHeap.get_latest 1000000 [(1, 10), (3, 30), (2, 20)] = some (2, 20) ∧
    (3, 30) ∈ [(1, 10), (3, 30), (2, 20)] ∧ (2 : Nat) < 3 ∧
    TimeBasedStorageHeap.get_earliest [] = none ∧
    TimeBasedStorageHeap.get_latest 1000000 [] = none := by
  refine ⟨?_, ?_, ?_, rfl, ?_, by decide, by decide, rfl, ?_⟩
  · simp [TimeBasedStorageHeap.add, Heapq.heappush, Heapq.siftdown, Heapq.entLt]
  · simp [TimeBasedStorageHeap.add, Heapq.heappush, Heapq.siftdown, Heapq.entLt]
  · simp [TimeBasedStorageHeap.add, Heapq.heappush, Heapq.siftdown, Heapq.entLt]
  · simp [TimeBasedStorageHeap.get_latest, TimeBasedStorageHeap.tslist, Heapq.bisect_right]
  · simp [TimeBasedStorageHeap.get_latest]

/-- C4 counterexample: the history add(5,10); add_unique(5,20) with a drawn
offset of 0 (a value `random.randint(0, max_offset)` can return) has two
successful insert calls and no remove, yet the hash and tree stores end with
size 1: the perturbed insert overwrote the existing entry. -/
theorem claim4_size_history_counterexample :
    (hashExec [Op.add 5 10, Op.addUnique 5 20 0]).inserts = 2 ∧
    (hashExec [Op.add 5 10, Op.addUnique 5 20 0]).removes = 0 ∧
    TimeBasedStorage.size (hashExec [Op.add 5 10, Op.addUnique 5 20 0]).store = 1 ∧
    (rbExec [Op.add 5 10, Op.addUnique 5 20 0]).inserts = 2 ∧
    (rbExec [Op.add 5 10, Op.addUnique 5 20 0]).removes = 0 ∧
    TimeBasedStorageRBTree.size (rbExec [Op.add 5 10, Op.addUnique 5 20 0]).store = 1 := by
  exact ⟨rfl, rfl, rfl, rfl, rfl, rfl⟩

/-- C4 (amended): over any operation history in which no add_unique call drew
an offset landing on an already-occupied perturbed timestamp, size() equals the
number of successful add and add_unique calls minus the number of successful
remove calls, and is_empty() holds iff size() = 0, on the hash, tree, and heap
backends (the heap backend has only add and remove, so its equation holds for
every history). -/
theorem claim4_size_consistency (ops : List Op) (hops : List HOp)
    (hclean1 : (hashExec ops).clean = true)
    (hclean2 : (rbExec ops).clean = true) :
    TimeBasedStorage.size (hashExec ops).store + (hashExec ops).removes = (hashExec ops).inserts ∧
    (TimeBasedStorage.is_empty (hashExec ops).store = true ↔
      TimeBasedStorage.size (hashExec ops).store = 0) ∧
    TimeBasedStorageRBTree.size (rbExec ops).store + (rbExec ops).removes = (rbExec ops).inserts ∧
    (TimeBasedStorageRBTree.is_empty (rbExec ops).store = true ↔
      TimeBasedStorageRBTree.size (rbExec ops).store = 0) ∧
    TimeBasedStorageHeap.size (heapExec hops).store + (heapExec hops).removes = (heapExec hops).inserts ∧
    (TimeBasedStorageHeap.is_empty (heapExec hops).store = true ↔
      TimeBasedStorageHeap.size (heapExec hops).store = 0) := by
  have h1 := hashExec_inv ops ⟨[], 0, 0, true⟩ (by simp [keysOf]) (fun _ => rfl)
  have h2 := rbExec_inv ops ⟨[], 0, 0, true⟩ List.Pairwise.nil (fun _ => rfl)
  have h3 := heapExec_inv hops ⟨[], 0, 0⟩ rfl
  refine ⟨h1.2 hclean1, ?_, h2.2 hclean2, ?_, h3, ?_⟩
  · simp [TimeBasedStorage.is_empty, TimeBasedStorage.size]
  · simp [TimeBasedStorageRBTree.is_empty, TimeBasedStorageRBTree.size]
  · simp [TimeBasedStorageHeap.is_empty, TimeBasedStorageHeap.size]

/-- C4 witness: a concrete clean history on each backend. -/
theorem claim4_size_consistency_witness :
    (hashExec [Op.add 1 10, Op.addUnique 1 20 5, Op.remove 1]).clean = true ∧
    (rbExec [Op.add 1 10, Op.addUnique 1 20 5, Op.remove 1]).clean = true ∧
    (TimeBasedStorage.size (hashExec [Op.add 1 10, Op.addUnique 1 20 5, Op.remove 1]).store +
        (hashExec [Op.add 1 10, Op.addUnique 1 20 5, Op.remove 1]).removes =
        (hashExec [Op.add 1 10, Op.addUnique 1 20 5, Op.remove 1]).inserts ∧
      (TimeBasedStorage.is_empty (hashExec [Op.add 1 10, Op.addUnique 1 20 5, Op.remove 1]).store = true ↔
        TimeBasedStorage.size (hashExec [Op.add 1 10, Op.addUnique 1 20 5, Op.remove 1]).store = 0) ∧
      TimeBasedStorageRBTree.size (rbExec [Op.add 1 10, Op.addUnique 1 20 5, Op.remove 1]).store +
        (rbExec [Op.add 1 10, Op.addUnique 1 20 5, Op.remove 1]).removes =
        (rbExec [Op.add 1 10, Op.addUnique 1 20 5, Op.remove 1]).inserts ∧
      (TimeBasedStorageRBTree.is_empty (rbExec [Op.add 1 10, Op.addUnique 1 20 5, Op.remove 1]).store = true ↔
        TimeBasedStorageRBTree.size (rbExec [Op.add 1 10, Op.addUnique 1 20 5, Op.remove 1]).store = 0) ∧
      TimeBasedStorageHeap.size (heapExec [HOp.add 1 10, HOp.remove 1]).store +
        (heapExec [HOp.add 1 10, HOp.remove 1]).removes =
        (heapExec [HOp.add 1 10, HOp.remove 1]).inserts ∧
      (TimeBasedStorageHeap.is_empty (heapExec [HOp.add 1 10, HOp.remove 1]).store = true ↔
        TimeBasedStorageHeap.size (heapExec [HOp.add 1 10, HOp.remove 1]).store = 0)) :=
  ⟨rfl, rfl,
    claim4_size_consistency [Op.add 1 10, Op.addUnique 1 20 5, Op.remove 1]
      [HOp.add 1 10, HOp.remove 1] rfl rfl⟩

/-- C5: when `t` is occupied and the pseudo-random source draws any offset in
[0, max_offset], add_unique_timestamp on the hash and tree backends returns a
timestamp between t and t + max_offset inclusive, and the value is stored under
the returned timestamp. -/
theorem claim5_add_unique_offset_bound (d r : List Entry) (t v off m : Nat)
    (hd : keyMem d t = true) (hr : keyMem r t = true) (hoff : off ≤ m) :
    (t ≤ (TimeBasedStorage.add_unique_timestamp d t v off).2 ∧
      (TimeBasedStorage.add_unique_timestamp d t v off).2 ≤ t + m ∧
      TimeBasedStorage.get_value_at (TimeBasedStorage.add_unique_timestamp d t v off).1
        (TimeBasedStorage.add_unique_timestamp d t v off).2 = some v) ∧
    (t ≤ (TimeBasedStorageRBTree.add_unique_timestamp r t v off).2 ∧
      (TimeBasedStorageRBTree.add_unique_timestamp r t v off).2 ≤ t + m ∧
      TimeBasedStorageRBTree.get_value_at (TimeBasedStorageRBTree.add_unique_timestamp r t v off).1
        (TimeBasedStorageRBTree.add_unique_timestamp r t v off).2 = some v) := by
  have hstep1 : TimeBasedStorage.add_unique_timestamp d t v off
      = (TimeBasedStorage.dictAssign d (t + off) v, t + off) := by
    rw [TimeBasedStorage.add_unique_timestamp, if_neg (by simp [hd])]
  have hstep2 : TimeBasedStorageRBTree.add_unique_timestamp r t v off
      = (TimeBasedStorageRBTree.insertSorted r (t + off) v, t + off) := by
    rw [TimeBasedStorageRBTree.add_unique_timestamp, if_neg (by simp [hr])]
  rw [hstep1, hstep2]
  exact ⟨⟨by omega, by omega, keyGet_dictAssign_self d (t + off) v⟩,
    ⟨by omega, by omega, keyGet_insertSorted_self r (t + off) v⟩⟩

/-- C5 witness: a store occupied at 5, with a drawn offset 3 ≤ 10. -/
theorem claim5_add_unique_offset_bound_witness :
    keyMem [(5, 1)] 5 = true ∧ (3 : Nat) ≤ 10 ∧
    ((5 ≤ (TimeBasedStorage.add_unique_timestamp [(5, 1)] 5 7 3).2 ∧
      (TimeBasedStorage.add_unique_timestamp [(5, 1)] 5 7 3).2 ≤ 5 + 10 ∧
      TimeBasedStorage.get_value_at (TimeBasedStorage.add_unique_timestamp [(5, 1)] 5 7 3).1
        (TimeBasedStorage.add_unique_timestamp [(5, 1)] 5 7 3).2 = some 7) ∧
    (5 ≤ (TimeBasedStorageRBTree.add_unique_timestamp [(5, 1)] 5 7 3).2 ∧
      (TimeBasedStorageRBTree.add_unique_timestamp [(5, 1)] 5 7 3).2 ≤ 5 + 10 ∧
      TimeBasedStorageRBTree.get_value_at (TimeBasedStorageRBTree.add_unique_timestamp [(5, 1)] 5 7 3).1
        (TimeBasedStorageRBTree.add_unique_timestamp [(5, 1)] 5 7 3).2 = some 7)) :=
  ⟨rfl, by omega, claim5_add_unique_offset_bound [(5, 1)] [(5, 1)] 5 7 3 10 rfl rfl (by omega)⟩

/-- C6: on the balanced-tree backend, for every operation history and all
bounds start ≤ end, get_range returns the values of the in-range records,
and those records' timestamps are strictly ascending. -/
theorem claim6_rbtree_range_sorted (ops : List Op) (s e : Nat) (_hse : s ≤ e) :
    TimeBasedStorageRBTree.get_range (rbExec ops).store s e
      = (TimeBasedStorageRBTree.range_records (rbExec ops).store s e).map Prod.snd ∧
    List.Pairwise (· < ·)
      ((TimeBasedStorageRBTree.range_records (rbExec ops).store s e).map Prod.fst) := by
  refine ⟨rfl, ?_⟩
  have hs := (rbExec_inv ops ⟨[], 0, 0, true⟩ List.Pairwise.nil (fun _ => rfl)).1
  have h2 : TimeBasedStorageRBTree.SortedKeys
      (TimeBasedStorageRBTree.range_records (rbExec ops).store s e) :=
    hs.sublist (List.filter_sublist _)
  exact List.pairwise_map.mpr h2

/-- C6 witness: a concrete history and bounds 1 ≤ 3. -/
theorem claim6_rbtree_range_sorted_witness :
    (1 : Nat) ≤ 3 ∧
    (TimeBasedStorageRBTree.get_range (rbExec [Op.add 2 20, Op.add 1 10, Op.add 3 30]).store 1 3
      = (TimeBasedStorageRBTree.range_records
          (rbExec [Op.add 2 20, Op.add 1 10, Op.add 3 30]).store 1 3).map Prod.snd ∧
    List.Pairwise (· < ·)
      ((TimeBasedStorageRBTree.range_records
          (rbExec [Op.add 2 20, Op.add 1 10, Op.add 3 30]).store 1 3).map Prod.fst)) :=
  ⟨by omega, claim6_rbtree_range_sorted [Op.add 2 20, Op.add 1 10, Op.add 3 30] 1 3 (by omega)⟩

/-- C9: any serialized interleaving of concurrent adds with pairwise-distinct
timestamps through the thread-safe tree or heap wrapper succeeds entirely and
yields a store of exactly the inserted records: size equals the number of
inserts (N*M when N threads insert M timestamps each), with no insert lost and
none duplicated. -/
theorem claim9_concurrent_distinct_inserts (ins : List Entry)
    (hnodup : (ins.map Prod.fst).Nodup) :
    ∃ s h, rbAddAll ins [] = some s ∧ heapAddAll ins [] = some h ∧
      TimeBasedStorageRBTree.size s = ins.length ∧
      TimeBasedStorageHeap.size h = ins.length ∧
      (∀ p : Entry, s.count p = ins.count p) ∧
      (∀ p : Entry, h.count p = ins.count p) := by
  rcases rbAddAll_spec ins [] (fun t _ => rfl) hnodup with ⟨s, hs, hsp⟩
  rcases heapAddAll_spec ins [] (fun t _ => rfl) hnodup with ⟨h, hh, hhp⟩
  have hsp2 : s.Perm ins := by simpa using hsp
  have hhp2 : h.Perm ins := by simpa using hhp
  exact ⟨s, h, hs, hh, hsp2.length_eq, hhp2.length_eq,
    fun p => hsp2.countP_eq (fun q => q == p), fun p => hhp2.countP_eq (fun q => q == p)⟩

/-- C9 witness: three distinct-timestamp inserts arriving interleaved. -/
theorem claim9_concurrent_distinct_inserts_witness :
    ([(2, 20), (1, 10), (3, 30)].map (Prod.fst (α := Nat) (β := Nat))).Nodup ∧
    (∃ s h, rbAddAll [(2, 20), (1, 10), (3, 30)] [] = some s ∧
      heapAddAll [(2, 20), (1, 10), (3, 30)] [] = some h ∧
      TimeBasedStorageRBTree.size s = [(2, 20), (1, 10), (3, 30)].length ∧
      TimeBasedStorageHeap.size h = [(2, 20), (1, 10), (3, 30)].length ∧
      (∀ p : Entry, s.count p = [(2, 20), (1, 10), (3, 30)].count p) ∧
      (∀ p : Entry, h.count p = [(2, 20), (1, 10), (3, 30)].count p)) :=
  ⟨by decide, claim9_concurrent_distinct_inserts [(2, 20), (1, 10), (3, 30)] (by decide)⟩

/-- C10: on the hash and tree backends, when both `t` and the perturbed
timestamp `t + offset` are occupied, add_unique_timestamp returns normally with
`t + offset`, silently replaces the value stored there, and the size does not
increase (it stays equal). -/
theorem claim10_add_unique_double_collision (d r : List Entry) (t v off : Nat)
    (hd1 : keyMem d t = true) (hd2 : keyMem d (t + off) = true)
    (hr0 : TimeBasedStorageRBTree.SortedKeys r)
    (hr1 : keyMem r t = true) (hr2 : keyMem r (t + off) = true) :
    ((TimeBasedStorage.add_unique_timestamp d t v off).2 = t + off ∧
      (TimeBasedStorage.add_unique_timestamp d t v off).1.length = d.length ∧
      TimeBasedStorage.get_value_at (TimeBasedStorage.add_unique_timestamp d t v off).1
        (t + off) = some v) ∧
    ((TimeBasedStorageRBTree.add_unique_timestamp r t v off).2 = t + off ∧
      (TimeBasedStorageRBTree.add_unique_timestamp r t v off).1.length = r.length ∧
      TimeBasedStorageRBTree.get_value_at (TimeBasedStorageRBTree.add_unique_timestamp r t v off).1
        (t + off) = some v) := by
  have hstep1 : TimeBasedStorage.add_unique_timestamp d t v off
      = (TimeBasedStorage.dictAssign d (t + off) v, t + off) := by
    rw [TimeBasedStorage.add_unique_timestamp, if_neg (by simp [hd1])]
  have hstep2 : TimeBasedStorageRBTree.add_unique_timestamp r t v off
      = (TimeBasedStorageRBTree.insertSorted r (t + off) v, t + off) := by
    rw [TimeBasedStorageRBTree.add_unique_timestamp, if_neg (by simp [hr1])]
  rw [hstep1, hstep2]
  exact ⟨⟨rfl, dictAssign_length_mem d (t + off) v hd2, keyGet_dictAssign_self d (t + off) v⟩,
    ⟨rfl, insertSorted_length_mem r (t + off) v hr0 hr2, keyGet_insertSorted_self r (t + off) v⟩⟩

/-- C10 witness: stores occupied at 5 and at 8 = 5 + 3, with drawn offset 3. -/
theorem claim10_add_unique_double_collision_witness :
    keyMem [(5, 1), (8, 2)] 5 = true ∧ keyMem [(5, 1), (8, 2)] (5 + 3) = true ∧
    TimeBasedStorageRBTree.SortedKeys [(5, 1), (8, 2)] ∧
    (((TimeBasedStorage.add_unique_timestamp [(5, 1), (8, 2)] 5 9 3).2 = 5 + 3 ∧
      (TimeBasedStorage.add_unique_timestamp [(5, 1), (8, 2)] 5 9 3).1.length =
        [(5, 1), (8, 2)].length ∧
      TimeBasedStorage.get_value_at (TimeBasedStorage.add_unique_timestamp [(5, 1), (8, 2)] 5 9 3).1
        (5 + 3) = some 9) ∧
    ((TimeBasedStorageRBTree.add_unique_timestamp [(5, 1), (8, 2)] 5 9 3).2 = 5 + 3 ∧
      (TimeBasedStorageRBTree.add_unique_timestamp [(5, 1), (8, 2)] 5 9 3).1.length =
        [(5, 1), (8, 2)].length ∧
      TimeBasedStorageRBTree.get_value_at
        (TimeBasedStorageRBTree.add_unique_timestamp [(5, 1), (8, 2)] 5 9 3).1
        (5 + 3) = some 9)) :=
  ⟨rfl, rfl, by decide,
    claim10_add_unique_double_collision [(5, 1), (8, 2)] [(5, 1), (8, 2)] 5 9 3
      rfl rfl (by decide) rfl rfl⟩
